import Mathlib
/-!
Verification of the dungs_poc_streamlit retrieval system.

This file gives a shallow embedding, in Lean 4, of the core components of the
repository and proves the testable properties stated in its specification:

* `RetrieveHybrid` — the hybrid query result mapping of `src/retrieve_hybrid.py`
  (function `search`, lines 22-46) together with the page coercion of
  `src/llm_processing.py` (`get_unique_pages`, lines 16-21).
* `App` — the citation extractor of `src/app.py` (`extract_citation`,
  lines 160-175), including a faithful model of the regular expression
  `\[(.*?),\s*(?:Page|Seite)\s*(\d+)\]` under `re.findall` semantics.
* `IndexingPinecone` — the idempotent batch ingestion of
  `src/indexing_pinecone.py` (`check_existing_ids`, `process_batch`, and the
  per-batch step of `main`).
* `IndexingHybrid` — the BM25 sparse vector builder (`build_dict`) and the
  upsert retry loop (`upsert_with_retry`) of `src/indexing_pinecone_hybrid.py`.

External collaborators (the embedding model, the Pinecone index, the tokenizer
and the generative model) are modelled as explicit inputs: the index's fetch
response, the list of query matches, the embedding response and
the tokenized documents are parameters of the embedded functions, exactly as
the specification treats them (narrow request/response contracts).

Python floats are idealized as exact rationals (`ℚ`) where only equality,
order and truncation matter, and as reals (`ℝ`) where the BM25 logarithm
formula is concerned.
-/
set_option maxHeartbeats 1000000

/-- Generic first-occurrence deduplication with a seen-accumulator: emit an
element only the first time it is seen.  This is the dedup loop of
`extract_citation` (src/app.py lines 166-173) and also the key order of a
Python `Counter` (insertion order of first occurrences). -/
def dedupLoop {α : Type} [DecidableEq α] : List α → List α → List α
  | [], _ => []
  | c :: rest, seen =>
    if c ∈ seen then dedupLoop rest seen else c :: dedupLoop rest (c :: seen)

/-- Index of the first occurrence of `x` in a list (length of the list when
absent). -/
def firstIdx {α : Type} [DecidableEq α] (x : α) : List α → ℕ
  | [] => 0
  | y :: ys => if y = x then 0 else firstIdx x ys + 1

namespace RetrieveHybrid

/-- Metadata of one Pinecone match as consumed by `search`
(src/retrieve_hybrid.py lines 38-46).  `text` and `filename` are read with
mandatory dictionary indexing (`match['metadata']['text']`), so an absent key
is a `KeyError`; `page_number` is read with `.get('page_number', 1)`.
Stored numbers may be fractional floats, idealized as `ℚ`. -/
structure MatchMeta where
  text : Option String
  filename : Option String
  page_number : Option ℚ
deriving DecidableEq

/-- One match of the index collaborator's query response
(entries of the query response consumed by `search`). -/
structure PMatch where
  metadata : MatchMeta
  score : ℚ
deriving DecidableEq

/-- The result dictionary built by `search` for each match:
`{'text': ..., 'source': ..., 'score': ..., 'page': ...}`. -/
structure SearchResult where
  text : String
  source : String
  score : ℚ
  page : ℚ
deriving DecidableEq

/-- One entry of the list comprehension in `search`: mandatory lookups of
`text` and `filename` (a missing key raises, modelled as `none`), `score`
copied, and `page` set to the raw stored `page_number` with default `1`.
Note the code performs no numeric conversion here. -/
def matchToResult (m : PMatch) : Option SearchResult :=
  match m.metadata.text, m.metadata.filename with
  | some t, some f =>
      some { text := t, source := f, score := m.score,
             page := m.metadata.page_number.getD 1 }
  | _, _ => none

/-- The result-mapping step of `search` (src/retrieve_hybrid.py lines 38-46)
over the ms returned by the index collaborator.  The comprehension keeps
the index's order; a `KeyError` on any match aborts the whole comprehension,
so the caller gets no results at all (modelled as `none`). -/
def search (ms : List PMatch) : Option (List SearchResult) :=
  match ms with
  | [] => some []
  | m :: rest =>
    match matchToResult m, search rest with
    | some r, some rs => some (r :: rs)
    | _, _ => none

/-- Python `int(float(x))` on an idealized float: truncation toward zero. -/
def pyInt (q : ℚ) : ℤ := Int.tdiv q.num q.den

/-- Function `get_unique_pages` (src/llm_processing.py lines 16-21): collects the
pairs `(r['source'], int(float(r['page'])))` into a Python `set` (unordered,
modelled as a `Finset`). -/
def get_unique_pages (results : List SearchResult) : Finset (String × ℤ) :=
  results.foldl (fun s r => insert (r.source, pyInt r.page) s) ∅

/-- The stored float `7.5`, built directly so that it evaluates in the kernel. -/
def q15half : ℚ := ⟨15, 2, by decide, by decide⟩

/-- A match whose metadata stores the fractional page number `7.5`. -/
def m75 : PMatch := { metadata := { text := some "t", filename := some "doc.pdf", page_number := some q15half }, score := 1 }

/-- A match with full metadata and score 3. -/
def mA : PMatch := { metadata := { text := some "ta", filename := some "a.pdf", page_number := some 2 }, score := 3 }

/-- A match with no stored page number and score 1. -/
def mB : PMatch := { metadata := { text := some "tb", filename := some "b.pdf", page_number := none }, score := 1 }

/-- A match whose metadata lacks the mandatory `text` key. -/
def mBad : PMatch := { metadata := { text := none, filename := some "c.pdf", page_number := some 1 }, score := 2 }

end RetrieveHybrid

namespace App

/-- The characters matched by `\s` in a Python 3 `str` pattern (ASCII
whitespace plus the Unicode whitespace code points). -/
def pySpaceChars : List Char :=
  [' ', '\t', '\n', '\u000B', '\u000C', '\r',
   '\u001C', '\u001D', '\u001E', '\u001F', '\u0085', '\u00A0',
   '\u1680', '\u2000', '\u2001', '\u2002', '\u2003', '\u2004', '\u2005',
   '\u2006', '\u2007', '\u2008', '\u2009', '\u200A', '\u2028', '\u2029',
   '\u202F', '\u205F', '\u3000']

/-- Python regex `\s` on a `str`. -/
def pyIsSpace (c : Char) : Bool := pySpaceChars.contains c

/-- The literal keyword `Page` of the citation pattern. -/
def pageKw : List Char := ['P', 'a', 'g', 'e']

/-- The literal keyword `Seite` of the citation pattern. -/
def seiteKw : List Char := ['S', 'e', 'i', 't', 'e']

/-- Match a literal keyword at the head of the character list, returning the
remainder on success (the regex alternation `(?:Page|Seite)` tries its
branches on the same position). -/
def dropKw : List Char → List Char → Option (List Char)
  | [], cs => some cs
  | _ :: _, [] => none
  | k :: ks, c :: cs => if c = k then dropKw ks cs else none

/-- Combine a (maximal) digit group and the remainder: the group must be
nonempty (`\d+`) and the remainder must open with the closing bracket `]`. -/
def digitsClose : List Char → List Char → Option (List Char × List Char)
  | [], _ => none
  | d :: dtl, e :: rest => if e = ']' then some (d :: dtl, rest) else none
  | _ :: _, [] => none

/-- Match the regex suffix `\s*(\d+)\]` deterministically: greedy `\s*` then
one or more digits (Python `\d` also covers non-ASCII decimal digits; texts
are modelled over the ASCII digit alphabet) then the closing bracket.
Returns the digit group and the remainder after `]`. -/
def tailNum (cs : List Char) : Option (List Char × List Char) :=
  digitsClose ((cs.dropWhile pyIsSpace).takeWhile Char.isDigit)
    ((cs.dropWhile pyIsSpace).dropWhile Char.isDigit)

/-- Match the regex suffix `\s*(?:Page|Seite)\s*(\d+)\]` after the literal
comma.  Greedy `\s*` is deterministic here because the keywords do not start
with whitespace; the alternation tries `Page` then `Seite`, which never
match at the same position. -/
def afterComma (cs1 : List Char) : Option (List Char × List Char) :=
  match dropKw pageKw (cs1.dropWhile pyIsSpace) with
  | some cs3 => tailNum cs3
  | none =>
    match dropKw seiteKw (cs1.dropWhile pyIsSpace) with
    | some cs3 => tailNum cs3
    | none => none

/-- Match the full regex suffix `,\s*(?:Page|Seite)\s*(\d+)\]` that must
follow the lazy filename group. -/
def matchTail : List Char → Option (List Char × List Char)
  | [] => none
  | c :: cs1 => if c = ',' then afterComma cs1 else none

/-- The lazy group `(.*?)` after an opening `[`: try the shortest filename
group first (Python lazy-quantifier semantics); each extension consumes one
more non-newline character (`.` does not match a newline).  Returns
`((filename, digits), remainder)` on success. -/
def findGroup (acc : List Char) : List Char → Option ((List Char × List Char) × List Char)
  | [] => none
  | c :: cs' =>
    match matchTail (c :: cs') with
    | some (ds, rest) => some ((acc.reverse, ds), rest)
    | none => if c = '\n' then none else findGroup (c :: acc) cs'

/-- Model of `re.findall(r'\[(.*?),\s*(?:Page|Seite)\s*(\d+)\]', text)`: scan left to
right for the leftmost match, emit its two groups, and continue after the
match (non-overlapping matches).  A failed start position advances by one
character.  The fuel argument (instantiated with the text length) only makes
the recursion structural; each successful match consumes at least six
characters, so the fuel never runs out on the instantiating call. -/
def findAllFuel : ℕ → List Char → List (List Char × List Char)
  | 0, _ => []
  | _, [] => []
  | fuel + 1, c :: cs =>
    if c = '[' then
      match findGroup [] cs with
      | some (m, rest) => m :: findAllFuel fuel rest
      | none => findAllFuel fuel cs
    else findAllFuel fuel cs

/-- All matches of the citation pattern in a character list, in text order. -/
def findAll (cs : List Char) : List (List Char × List Char) :=
  findAllFuel cs.length cs

/-- Python `int` on a nonempty decimal digit string. -/
def digitsToNat (ds : List Char) : ℕ :=
  ds.foldl (fun n c => 10 * n + (c.toNat - 48)) 0

/-- The `re.findall` matches of `extract_citation`, normalized to
`(filename, page)` pairs in order of occurrence in the text. -/
def matchesOf (t : String) : List (String × ℕ) :=
  (findAll t.toList).map (fun m => (String.mk m.1, digitsToNat m.2))

/-- Function `extract_citation` (src/app.py lines 160-175): find all citation markers
and deduplicate them preserving first-seen order. -/
def extract_citation (t : String) : List (String × ℕ) :=
  dedupLoop (matchesOf t) []

end App

namespace IndexingPinecone

/-- The metadata fields kept by `clean_metadata` (src/indexing_pinecone.py
lines 16-24); every field is read with `.get`, so each may be absent.
Stored numbers are idealized as `ℚ`. -/
structure ChunkMeta where
  filename : Option String
  filetype : Option String
  languages : Option (List String)
  page_number : Option ℚ
deriving DecidableEq

/-- One chunk as read from the chunk JSON files: the fields consumed by
ingestion.  `element_id`, `type` and `text` are read with `.get` and may be
absent. -/
structure IChunk where
  element_id : Option String
  type : Option String
  text : Option String
  metadata : ChunkMeta
deriving DecidableEq

/-- Function `clean_metadata`: extract only the needed metadata fields. -/
def clean_metadata (c : IChunk) : ChunkMeta :=
  { filename := c.metadata.filename, filetype := c.metadata.filetype,
    languages := c.metadata.languages, page_number := c.metadata.page_number }

/-- The metadata stored on an upserted vector: `clean_metadata` plus the
raw `text` and the `type`. -/
structure VecMeta where
  filename : Option String
  filetype : Option String
  languages : Option (List String)
  page_number : Option ℚ
  text : String
  type : Option String
deriving DecidableEq

/-- One vector prepared for upsert by `process_batch`. -/
structure VecRecord where
  id : String
  values : List ℚ
  metadata : VecMeta
deriving DecidableEq

/-- Function `check_existing_ids` (src/indexing_pinecone.py lines 26-33): return the
ids the index fetch reports as present; on any fetch error (`fetchResult =
none`) the exception is swallowed and the empty set is returned. -/
def check_existing_ids (fetchResult : Option (Finset String)) : Finset String :=
  fetchResult.getD ∅

/-- Python truthiness of `chunk.get('element_id')`: an absent id or the
empty string is falsy. -/
def truthyId : Option String → Option String
  | some id => if id = "" then none else some id
  | none => none

/-- The ids of a batch as collected by `main` (line 147):
`[chunk['element_id'] for chunk in batch if chunk.get('element_id')]` —
chunks with an absent or empty (falsy) id are skipped. -/
def batchIds (batch : List IChunk) : List String :=
  batch.filterMap (fun c => truthyId c.element_id)

/-- The filter of `process_batch` (lines 44-48): keep a chunk when its id is
not among the existing ids (an absent id is never in the id set) and its
type is neither `Footer` nor `Image`. -/
def keepChunk (existing : Finset String) (c : IChunk) : Bool :=
  (match c.element_id with
   | some id => decide (id ∉ existing)
   | none => true) &&
  !(c.type == some "Footer") && !(c.type == some "Image")

/-- Drop the non-ASCII characters:
`text.encode('ascii', 'ignore').decode('ascii')`. -/
def asciiFilter (cs : List Char) : List Char :=
  cs.filter (fun c => c.toNat < 128)

/-- Split on every whitespace character, keeping empty segments (composed
with the nonempty filter below this is Python `str.split()` with no
arguments, which splits on whitespace runs).  Python `str.split`/`strip`
whitespace coincides with the `\s` set modelled by `App.pyIsSpace`. -/
def splitWsAux : List Char → List Char → List (List Char)
  | [], acc => [acc.reverse]
  | c :: rest, acc =>
    if App.pyIsSpace c then acc.reverse :: splitWsAux rest []
    else splitWsAux rest (c :: acc)

/-- The whitespace-separated words of a text (Python `text.split()`). -/
def wordsOf (cs : List Char) : List (List Char) :=
  (splitWsAux cs []).filter (fun w => decide (w ≠ []))

/-- Python `' '.join(words)`. -/
def joinWords : List (List Char) → List Char
  | [] => []
  | [w] => w
  | w :: ws => w ++ ' ' :: joinWords ws

/-- The text normalization of `process_batch` (lines 62-65): drop non-ASCII
characters, then collapse all whitespace runs to single spaces. -/
def normalizeText (s : String) : String :=
  String.mk (joinWords (wordsOf (asciiFilter s.toList)))

/-- Python `str.strip()`. -/
def pyStrip (cs : List Char) : List Char :=
  ((cs.dropWhile App.pyIsSpace).reverse.dropWhile App.pyIsSpace).reverse

/-- The text-collection loop of `process_batch` (lines 56-72): for each kept
chunk take its `text` (default empty), require it truthy, normalize it, and
keep the chunk only when the normalized text is truthy after `strip`.
Returns `texts_for_embedding` and `valid_chunks`, in order. -/
def collectValid : List IChunk → List String × List IChunk
  | [] => ([], [])
  | c :: rest =>
    if c.text.getD "" ≠ "" then
      if pyStrip (normalizeText (c.text.getD "")).toList ≠ [] then
        ((normalizeText (c.text.getD "")) :: (collectValid rest).1,
          c :: (collectValid rest).2)
      else collectValid rest
    else collectValid rest

/-- One vector dictionary as appended by `process_batch` (lines 90-98):
`clean_metadata` extended with the raw `text` and the `type`, the chunk id
and the embedding values. -/
def mkRecord (c : IChunk) (id : String) (vals : List ℚ) : VecRecord :=
  { id := id, values := vals,
    metadata :=
      { filename := (clean_metadata c).filename,
        filetype := (clean_metadata c).filetype,
        languages := (clean_metadata c).languages,
        page_number := (clean_metadata c).page_number,
        text := c.text.getD "", type := c.type } }

/-- The vector-assembly loop of `process_batch` (lines 87-98): for each valid
chunk with index `i`, if the embedding response has an `i`-th entry, build a
record from `chunk['element_id']` (a mandatory lookup: an absent id raises,
modelled `none`, and the surrounding `except` then discards the batch) and
the `i`-th embedding; chunks beyond the response length are skipped. -/
def buildVectors : List IChunk → ℕ → List (List ℚ) → Option (List VecRecord)
  | [], _, _ => some []
  | c :: rest, i, resp =>
    if i < resp.length then
      match c.element_id, buildVectors rest (i + 1) resp with
      | none, _ => none
      | some _, none => none
      | some id, some vs => some (mkRecord c id (resp.getD i []) :: vs)
    else buildVectors rest (i + 1) resp

/-- The outcome of `process_batch`: the vectors to upsert, and whether the
bulk embedding call was issued (it is issued exactly when
`texts_for_embedding` is nonempty; both early returns happen before it). -/
structure PBResult where
  vectors : List VecRecord
  embedCalled : Bool
deriving DecidableEq

/-- Function `process_batch` (src/indexing_pinecone.py lines 40-104): filter out
existing ids and excluded types, collect normalized nonempty texts, issue
the bulk embedding call for them (the response is the collaborator input
`resp`), and assemble the vectors.  An exception while assembling (missing
`element_id`) is caught by the surrounding `except`, which returns `[]`. -/
def process_batch (batch : List IChunk) (existing : Finset String)
    (resp : List (List ℚ)) : PBResult :=
  if batch.filter (keepChunk existing) = [] then ⟨[], false⟩
  else
    if (collectValid (batch.filter (keepChunk existing))).1 = [] then ⟨[], false⟩
    else
      match buildVectors (collectValid (batch.filter (keepChunk existing))).2 0 resp with
      | some vs => ⟨vs, true⟩
      | none => ⟨[], true⟩

/-- The per-batch counters of `main` (src/indexing_pinecone.py lines
144-166). -/
structure BatchOutcome where
  skipped : ℕ
  processed : ℕ
  embedCalled : Bool
  upsertCalled : Bool
deriving DecidableEq

/-- One iteration of the batch loop of `main` (lines 144-166): check which
ids exist (`fetchResult` is the index collaborator's fetch response, `none`
when the call fails), count them as skipped, process the batch, and upsert
exactly when some vectors were produced; `processed` grows by the number of
upserted vectors. -/
def ingestBatch (batch : List IChunk) (fetchResult : Option (Finset String))
    (resp : List (List ℚ)) : BatchOutcome :=
  let existing := check_existing_ids fetchResult
  let pb := process_batch batch existing resp
  { skipped := existing.card
    processed := pb.vectors.length
    embedCalled := pb.embedCalled
    upsertCalled := !pb.vectors.isEmpty }

end IndexingPinecone

namespace IndexingHybrid

/-- One sparse embedding as built by `build_dict`
(src/indexing_pinecone_hybrid.py lines 19-56): parallel `indices` and
`values` lists, appended in `Counter` iteration order. -/
structure SparseVec where
  indices : List ℕ
  values : List ℝ

/-- BM25 parameter `k1 = 1.5` (line 30). -/
def k1 : ℝ := 1.5

/-- BM25 parameter `b = 0.75` (line 31). -/
def b : ℝ := 0.75

/-- The keys of `Counter(token_ids)` in iteration order: distinct token ids
in first-occurrence order. -/
def counterKeys (l : List ℕ) : List ℕ := dedupLoop l []

/-- The batch document frequency (lines 25-27): the number of documents of
the batch containing the token (`doc_freq` built from `set(token_ids)`). -/
def docFreq (batch : List (List ℕ)) (t : ℕ) : ℕ :=
  (batch.filter (fun doc => decide (t ∈ doc))).length

/-- The distinct tokens of a document retained by the scoring loop: special
token ids 0, 1 and 2 are skipped (lines 40-43). -/
def retainedTokens (doc : List ℕ) : List ℕ :=
  (counterKeys doc).filter (fun t => decide (¬(t = 0 ∨ t = 1 ∨ t = 2)))

/-- The BM25 score of one term as computed on lines 46-49 (floats idealized
as reals, `np.log` as the real logarithm):
`idf = max(0, log((total_docs - df + 0.5) / (df + 0.5)))`, then
`idf * ((tf * (k1 + 1)) / (tf + k1 * (1 - b + b * doc_length / avg)))`. -/
noncomputable def bm25Score (total_docs df tf doc_length avg : ℝ) : ℝ :=
  max 0 (Real.log ((total_docs - df + 0.5) / (df + 0.5))) *
    ((tf * (k1 + 1)) / (tf + k1 * (1 - b + b * doc_length / avg)))

/-- The sparse vector built for one document when no error occurs: every
retained token paired with its BM25 score, in `Counter` order — scores of
value zero included. -/
noncomputable def docEntry (total_docs : ℝ) (df : ℕ → ℕ) (avg : ℝ)
    (doc : List ℕ) : SparseVec :=
  { indices := retainedTokens doc,
    values := (retainedTokens doc).map (fun t =>
      bm25Score total_docs (df t) (doc.count t) doc.length avg) }

/-- The sparse vector of one document (the inner loop, lines 34-54).  The
division `doc_length / avg_doc_length` is executed once per retained token;
when `avg = 0` and at least one token is retained Python raises
`ZeroDivisionError`, modelled as `none`. -/
noncomputable def docVec (total_docs : ℝ) (df : ℕ → ℕ) (avg : ℝ)
    (doc : List ℕ) : Option SparseVec :=
  if retainedTokens doc ≠ [] ∧ avg = 0 then none
  else some (docEntry total_docs df avg doc)

/-- The outer loop of `build_dict` over the batch documents; an exception in
any document aborts the whole call. -/
noncomputable def docVecs (total_docs : ℝ) (df : ℕ → ℕ) (avg : ℝ) :
    List (List ℕ) → Option (List SparseVec)
  | [] => some []
  | doc :: rest =>
    match docVec total_docs df avg doc, docVecs total_docs df avg rest with
    | some v, some vs => some (v :: vs)
    | _, _ => none

/-- Function `build_dict` (src/indexing_pinecone_hybrid.py lines 19-56): batch-local
BM25 sparse vectors.  `avg_doc_length` divides by `len(input_batch)` (line
32), so the empty batch raises `ZeroDivisionError` (modelled `none`). -/
noncomputable def build_dict (input_batch : List (List ℕ)) : Option (List SparseVec) :=
  if input_batch.length = 0 then none
  else
    docVecs (input_batch.length : ℝ) (docFreq input_batch)
      (((input_batch.map List.length).sum : ℝ) / (input_batch.length : ℝ))
      input_batch

/-- The specification's idf formula (§4.1), written from the spec's words:
`idf = max(0, ln((N - df + 0.5) / (df + 0.5)))`. -/
noncomputable def specIdf (N df : ℝ) : ℝ :=
  max 0 (Real.log ((N - df + 0.5) / (df + 0.5)))

/-- The specification's score formula (§4.1), written from the spec's words:
`score = idf * (tf*(k1+1)) / (tf + k1*(1 - b + b*(len/avgLen)))` with
`k1 = 1.5`, `b = 0.75`. -/
noncomputable def specScore (N df tf len avgLen : ℝ) : ℝ :=
  specIdf N df * (tf * (1.5 + 1)) / (tf + 1.5 * (1 - 0.75 + 0.75 * (len / avgLen)))

/-- The outcome of one `index.upsert` call, as observed by the retry loop of
`upsert_with_retry` (src/indexing_pinecone_hybrid.py lines 84-108): success,
a payload-size error (`"Request size" in str(e)`), or any other transient
error. -/
inductive UpsertOutcome
  | success
  | payloadTooLarge
  | transient
deriving DecidableEq

/-- The result of `upsert_with_retry`: either all vectors were upserted
(`done`) or the retry ceiling was exhausted and the exception propagates
(`raised`); both carry the successfully upserted sub-batches in call
order. -/
inductive UwrResult (α : Type)
  | done (ups : List (List α))
  | raised (ups : List (List α))
deriving DecidableEq

/-- The while/for loop of `upsert_with_retry` (lines 89-108), one step per
upsert call.  `outcomes` is the trace of the index collaborator's responses,
consumed one per call (`none` means the trace ended while the loop still
needed a call — a model artifact, not a program behavior).  State:
`start` (`start_idx`), `chunk` (`chunk_size`), `attempt` (the `for` counter)
and the accumulated successful sub-batches.  On success the window advances
and the attempt counter resets; on a payload-size error with `chunk > 1` the
chunk size is halved with a floor of 1 and the same position is retried with
fresh attempts; otherwise the failure is retried (with exponential-backoff
sleeps, not modelled as they are real time) until `max_retries` attempts are
exhausted, when the exception is raised. -/
def upsertAux {α : Type} (vectors : List α) (max_retries : ℕ) :
    List UpsertOutcome → ℕ → ℕ → ℕ → List (List α) → Option (UwrResult α)
  | [], start, _, _, acc =>
      if vectors.length ≤ start then some (UwrResult.done acc.reverse) else none
  | UpsertOutcome.success :: rest, start, chunk, _, acc =>
      if vectors.length ≤ start then some (UwrResult.done acc.reverse)
      else upsertAux vectors max_retries rest
            (start + ((vectors.drop start).take chunk).length) chunk 0
            (((vectors.drop start).take chunk) :: acc)
  | UpsertOutcome.payloadTooLarge :: rest, start, chunk, attempt, acc =>
      if vectors.length ≤ start then some (UwrResult.done acc.reverse)
      else if 1 < chunk then
        upsertAux vectors max_retries rest start (max 1 (chunk / 2)) 0 acc
      else if attempt + 1 < max_retries then
        upsertAux vectors max_retries rest start chunk (attempt + 1) acc
      else some (UwrResult.raised acc.reverse)
  | UpsertOutcome.transient :: rest, start, chunk, attempt, acc =>
      if vectors.length ≤ start then some (UwrResult.done acc.reverse)
      else if attempt + 1 < max_retries then
        upsertAux vectors max_retries rest start chunk (attempt + 1) acc
      else some (UwrResult.raised acc.reverse)

/-- Function `upsert_with_retry(index, vectors, max_retries)`: the loop starts at
`start_idx = 0` with `chunk_size = 50` (line 86). -/
def upsert_with_retry {α : Type} (vectors : List α) (max_retries : ℕ)
    (outcomes : List UpsertOutcome) : Option (UwrResult α) :=
  upsertAux vectors max_retries outcomes 0 50 0 []

/-- The batch loop of `main` (src/indexing_pinecone_hybrid.py lines
182-199): each batch's vectors are upserted with `upsert_with_retry` (called
with the default `max_retries = 3`); an exception raised after the retries
is caught by the per-batch `except`, which records the error and continues
with the next batch.  Returns one success flag per attempted batch. -/
def runBatches {α : Type} : List (List α × List UpsertOutcome) → Option (List Bool)
  | [] => some []
  | (vs, tr) :: rest =>
    match upsert_with_retry vs 3 tr with
    | none => none
    | some (UwrResult.done _) => (runBatches rest).map (fun bs => true :: bs)
    | some (UwrResult.raised _) => (runBatches rest).map (fun bs => false :: bs)

end IndexingHybrid

namespace RetrieveHybrid

theorem search_eq_some {ms : List PMatch} {res : List SearchResult}
    (h : search ms = some res) :
    res.map SearchResult.score = ms.map PMatch.score ∧
    res.map SearchResult.page
      = ms.map (fun m => m.metadata.page_number.getD 1) ∧
    res.length = ms.length := by
  induction ms generalizing res with
  | nil =>
    simp only [search] at h
    cases h
    simp
  | cons m rest ih =>
    simp only [search] at h
    cases hm : matchToResult m with
    | none => rw [hm] at h; exact absurd h (by simp)
    | some r =>
      rw [hm] at h
      cases hrest : search rest with
      | none => rw [hrest] at h; exact absurd h (by simp)
      | some rs =>
        rw [hrest] at h
        cases h
        obtain ⟨ih1, ih2, ih3⟩ := ih hrest
        have hr : r.score = m.score ∧ r.page = m.metadata.page_number.getD 1 := by
          unfold matchToResult at hm
          cases ht : m.metadata.text with
          | none => rw [ht] at hm; cases hm
          | some t =>
            cases hf : m.metadata.filename with
            | none => rw [ht, hf] at hm; cases hm
            | some f =>
              rw [ht, hf] at hm
              cases hm
              exact ⟨rfl, rfl⟩
        refine ⟨?_, ?_, ?_⟩ <;> simp [ih1, ih2, ih3, hr.1, hr.2]

theorem get_unique_pages_aux (rs : List SearchResult) (s : Finset (String × ℤ)) :
    rs.foldl (fun s r => insert (r.source, pyInt r.page) s) s
      = s ∪ (rs.map (fun r => (r.source, pyInt r.page))).toFinset := by
  induction rs generalizing s with
  | nil => simp
  | cons r rest ih =>
    simp only [List.foldl_cons, List.map_cons, List.toFinset_cons, ih,
      Finset.insert_union, Finset.union_insert]

theorem get_unique_pages_eq (rs : List SearchResult) :
    get_unique_pages rs = (rs.map (fun r => (r.source, pyInt r.page))).toFinset := by
  unfold get_unique_pages
  rw [get_unique_pages_aux]
  simp

end RetrieveHybrid

namespace App

theorem dropKw_eq : ∀ {ks cs rest : List Char},
    dropKw ks cs = some rest → cs = ks ++ rest := by
  intro ks
  induction ks with
  | nil => intro cs rest h; cases h; rfl
  | cons k ks ih =>
    intro cs rest h
    cases cs with
    | nil => cases h
    | cons c cs' =>
      rw [dropKw] at h
      by_cases hck : c = k
      · rw [if_pos hck] at h
        rw [hck, List.cons_append, ih h]
      · rw [if_neg hck] at h
        cases h

theorem tailNum_eq {cs ds rest : List Char} (h : tailNum cs = some (ds, rest)) :
    ∃ ws2, (∀ c ∈ ws2, pyIsSpace c) ∧ ds ≠ [] ∧ (∀ c ∈ ds, Char.isDigit c) ∧
      cs = ws2 ++ ds ++ ']' :: rest := by
  unfold tailNum at h
  cases hd : (cs.dropWhile pyIsSpace).takeWhile Char.isDigit with
  | nil => rw [hd, digitsClose] at h; cases h
  | cons d0 dtl =>
    rw [hd] at h
    cases hdrop : (cs.dropWhile pyIsSpace).dropWhile Char.isDigit with
    | nil => rw [hdrop, digitsClose] at h; cases h
    | cons e etl =>
      rw [hdrop, digitsClose] at h
      by_cases he : e = ']'
      · rw [if_pos he] at h
        cases h
        subst he
        refine ⟨cs.takeWhile pyIsSpace, fun c hc => List.mem_takeWhile_imp hc,
          by simp, ?_, ?_⟩
        · intro c hc
          rw [← hd] at hc
          exact List.mem_takeWhile_imp hc
        · have h4 : cs.dropWhile pyIsSpace = (d0 :: dtl) ++ ']' :: rest := by
            conv_lhs => rw [← List.takeWhile_append_dropWhile
              (p := Char.isDigit) (l := cs.dropWhile pyIsSpace)]
            rw [hd, hdrop]
          conv_lhs => rw [← List.takeWhile_append_dropWhile (p := pyIsSpace) (l := cs), h4]
          simp [List.append_assoc]
      · rw [if_neg he] at h
        cases h

theorem afterComma_eq {cs1 ds rest : List Char}
    (h : afterComma cs1 = some (ds, rest)) :
    ∃ ws1 kw ws2, (kw = pageKw ∨ kw = seiteKw) ∧
      (∀ c ∈ ws1, pyIsSpace c) ∧ (∀ c ∈ ws2, pyIsSpace c) ∧
      ds ≠ [] ∧ (∀ c ∈ ds, Char.isDigit c) ∧
      cs1 = ws1 ++ kw ++ ws2 ++ ds ++ ']' :: rest := by
  unfold afterComma at h
  have hsplit : cs1 = cs1.takeWhile pyIsSpace ++ cs1.dropWhile pyIsSpace :=
    (List.takeWhile_append_dropWhile (p := pyIsSpace) (l := cs1)).symm
  have hws1 : ∀ c ∈ cs1.takeWhile pyIsSpace, pyIsSpace c :=
    fun c hc => List.mem_takeWhile_imp hc
  cases hpg : dropKw pageKw (cs1.dropWhile pyIsSpace) with
  | some cs3 =>
    rw [hpg] at h
    obtain ⟨ws2, hws2, hne, hdig, h3⟩ := tailNum_eq h
    refine ⟨cs1.takeWhile pyIsSpace, pageKw, ws2, Or.inl rfl, hws1, hws2, hne, hdig, ?_⟩
    conv_lhs => rw [hsplit, dropKw_eq hpg, h3]
    simp [List.append_assoc]
  | none =>
    rw [hpg] at h
    cases hse : dropKw seiteKw (cs1.dropWhile pyIsSpace) with
    | some cs3 =>
      rw [hse] at h
      obtain ⟨ws2, hws2, hne, hdig, h3⟩ := tailNum_eq h
      refine ⟨cs1.takeWhile pyIsSpace, seiteKw, ws2, Or.inr rfl, hws1, hws2, hne, hdig, ?_⟩
      conv_lhs => rw [hsplit, dropKw_eq hse, h3]
      simp [List.append_assoc]
    | none =>
      rw [hse] at h
      cases h

theorem matchTail_eq {cs ds rest : List Char}
    (h : matchTail cs = some (ds, rest)) :
    ∃ ws1 kw ws2, (kw = pageKw ∨ kw = seiteKw) ∧
      (∀ c ∈ ws1, pyIsSpace c) ∧ (∀ c ∈ ws2, pyIsSpace c) ∧
      ds ≠ [] ∧ (∀ c ∈ ds, Char.isDigit c) ∧
      cs = ',' :: (ws1 ++ kw ++ ws2 ++ ds ++ ']' :: rest) := by
  cases cs with
  | nil => rw [matchTail] at h; cases h
  | cons c0 cs1 =>
    rw [matchTail] at h
    by_cases hc : c0 = ','
    · rw [if_pos hc] at h
      subst hc
      obtain ⟨ws1, kw, ws2, hkw, hws1, hws2, hne, hdig, hcs1⟩ := afterComma_eq h
      exact ⟨ws1, kw, ws2, hkw, hws1, hws2, hne, hdig, by rw [hcs1]⟩
    · rw [if_neg hc] at h
      cases h

theorem findGroup_eq : ∀ {cs acc g ds rest : List Char},
    findGroup acc cs = some ((g, ds), rest) →
    ∃ mid tcs, g = acc.reverse ++ mid ∧ (∀ c ∈ mid, c ≠ '\n') ∧
      cs = mid ++ tcs ∧ matchTail tcs = some (ds, rest) := by
  intro cs
  induction cs with
  | nil =>
    intro acc g ds rest h
    rw [findGroup] at h
    cases h
  | cons c cs' ih =>
    intro acc g ds rest h
    rw [findGroup] at h
    cases hmt : matchTail (c :: cs') with
    | some p =>
      obtain ⟨pds, prest⟩ := p
      rw [hmt] at h
      have h' : some ((acc.reverse, pds), prest) = some ((g, ds), rest) := h
      cases h'
      exact ⟨[], c :: cs', by simp, by simp, by simp, hmt⟩
    | none =>
      rw [hmt] at h
      have h' : (if c = '\n' then none else findGroup (c :: acc) cs')
          = some ((g, ds), rest) := h
      by_cases hnl : c = '\n'
      · rw [if_pos hnl] at h'; cases h'
      · rw [if_neg hnl] at h'
        obtain ⟨mid, tcs, hg, hmid, hcs, htail⟩ := ih h'
        refine ⟨c :: mid, tcs, ?_, ?_, by rw [hcs]; rfl, htail⟩
        · rw [hg, List.reverse_cons, List.append_assoc]
          rfl
        · intro x hx
          rcases List.mem_cons.mp hx with rfl | hx'
          · exact hnl
          · exact hmid x hx'

theorem findAllFuel_sound : ∀ (fuel : ℕ) (cs g ds : List Char),
    (g, ds) ∈ findAllFuel fuel cs →
    ∃ ws1 kw ws2 pre post, (kw = pageKw ∨ kw = seiteKw) ∧
      (∀ c ∈ ws1, pyIsSpace c) ∧ (∀ c ∈ ws2, pyIsSpace c) ∧
      ds ≠ [] ∧ (∀ c ∈ ds, Char.isDigit c) ∧ (∀ c ∈ g, c ≠ '\n') ∧
      cs = pre ++ '[' :: (g ++ ',' :: (ws1 ++ kw ++ ws2 ++ ds ++ ']' :: post)) := by
  intro fuel
  induction fuel with
  | zero => intro cs g ds h; rw [findAllFuel] at h; cases h
  | succ fuel ih =>
    intro cs g ds h
    cases cs with
    | nil =>
      rw [findAllFuel] at h
      · cases h
      · omega
    | cons c cs' =>
      rw [findAllFuel] at h
      by_cases hb : c = '['
      · rw [if_pos hb] at h
        cases hfg : findGroup [] cs' with
        | some p =>
          rw [hfg] at h
          obtain ⟨⟨g', ds'⟩, rest⟩ := p
          rcases List.mem_cons.mp h with heq | hmem
          · cases heq
            obtain ⟨mid, tcs, hg, hmid, hcs, htail⟩ := findGroup_eq hfg
            obtain ⟨ws1, kw, ws2, hkw, hws1, hws2, hne, hdig, htcs⟩ := matchTail_eq htail
            simp only [List.reverse_nil, List.nil_append] at hg
            subst hg
            refine ⟨ws1, kw, ws2, [], rest, hkw, hws1, hws2, hne, hdig, hmid, ?_⟩
            rw [hb, hcs, htcs]
            simp
          · obtain ⟨mid, tcs, hgmid, hmidnl, hcs, htail⟩ := findGroup_eq hfg
            obtain ⟨ws1', kw', ws2', hkw', hws1', hws2', hne', hdig', htcs⟩ :=
              matchTail_eq htail
            obtain ⟨ws1, kw, ws2, pre, post, hkw, hws1, hws2, hne, hdig, hgnl, hrest⟩ :=
              ih rest g ds hmem
            refine ⟨ws1, kw, ws2,
              '[' :: (mid ++ ',' :: (ws1' ++ kw' ++ ws2' ++ ds' ++ ']' :: pre)), post,
              hkw, hws1, hws2, hne, hdig, hgnl, ?_⟩
            rw [hb, hcs, htcs, hrest]
            simp [List.append_assoc]
        | none =>
          rw [hfg] at h
          obtain ⟨ws1, kw, ws2, pre, post, hkw, hws1, hws2, hne, hdig, hg, hrest⟩ :=
            ih cs' g ds h
          exact ⟨ws1, kw, ws2, c :: pre, post, hkw, hws1, hws2, hne, hdig, hg, by
            rw [hrest]; rfl⟩
      · rw [if_neg hb] at h
        obtain ⟨ws1, kw, ws2, pre, post, hkw, hws1, hws2, hne, hdig, hg, hrest⟩ :=
          ih cs' g ds h
        exact ⟨ws1, kw, ws2, c :: pre, post, hkw, hws1, hws2, hne, hdig, hg, by
          rw [hrest]; rfl⟩

end App

namespace IndexingPinecone

theorem batchIds_length {batch : List IChunk}
    (hids : ∀ c ∈ batch, c.element_id.getD "" ≠ "") :
    (batchIds batch).length = batch.length := by
  induction batch with
  | nil => rfl
  | cons c rest ih =>
    have hc := hids c (List.mem_cons_self c rest)
    unfold batchIds at ih ⊢
    rw [List.filterMap_cons]
    cases he : c.element_id with
    | none => rw [he] at hc; exact absurd rfl hc
    | some id =>
      rw [he] at hc
      have hne : id ≠ "" := hc
      rw [truthyId, if_neg hne]
      show (id :: List.filterMap (fun c => truthyId c.element_id) rest).length
        = rest.length + 1
      rw [List.length_cons, ih (fun x hx => hids x (List.mem_cons_of_mem _ hx))]

theorem mem_batchIds {batch : List IChunk} {c : IChunk} {id : String}
    (hc : c ∈ batch) (he : c.element_id = some id) (hne : id ≠ "") :
    id ∈ batchIds batch := by
  unfold batchIds
  refine List.mem_filterMap.mpr ⟨c, hc, ?_⟩
  rw [he, truthyId, if_neg hne]

theorem collectValid_all {l : List IChunk}
    (h : ∀ c ∈ l, c.text.getD "" ≠ "" ∧
      pyStrip (normalizeText (c.text.getD "")).toList ≠ []) :
    collectValid l = (l.map (fun c => normalizeText (c.text.getD "")), l) := by
  induction l with
  | nil => rfl
  | cons c rest ih =>
    obtain ⟨h1, h2⟩ := h c (List.mem_cons_self c rest)
    rw [collectValid, if_pos h1, if_pos h2,
      ih (fun x hx => h x (List.mem_cons_of_mem _ hx))]
    rfl

theorem buildVectors_all : ∀ (l : List IChunk) (i : ℕ) (resp : List (List ℚ)),
    (∀ c ∈ l, c.element_id ≠ none) → i + l.length ≤ resp.length →
    ∃ vs, buildVectors l i resp = some vs ∧ vs.length = l.length := by
  intro l
  induction l with
  | nil => intro i resp _ _; exact ⟨[], rfl, rfl⟩
  | cons c rest ih =>
    intro i resp hid hlen
    have hi : i < resp.length := by
      rw [List.length_cons] at hlen
      omega
    cases he : c.element_id with
    | none => exact absurd he (hid c (List.mem_cons_self c rest))
    | some id =>
      obtain ⟨vs, hvs, hvslen⟩ := ih (i + 1) resp
        (fun x hx => hid x (List.mem_cons_of_mem _ hx))
        (by rw [List.length_cons] at hlen; omega)
      refine ⟨mkRecord c id (resp.getD i []) :: vs, ?_, ?_⟩
      · rw [buildVectors, if_pos hi, he, hvs]
      · rw [List.length_cons, hvslen]
        rfl

end IndexingPinecone

namespace IndexingHybrid

theorem bm25Score_eq_spec (N df tf len avg : ℝ) :
    bm25Score N df tf len avg = specScore N df tf len avg := by
  unfold bm25Score specScore specIdf k1 b
  ring

theorem docVecs_eq {td avg : ℝ} {df : ℕ → ℕ} : ∀ {l : List (List ℕ)} {out},
    docVecs td df avg l = some out →
    out = l.map (fun doc => docEntry td df avg doc) := by
  intro l
  induction l with
  | nil =>
    intro out h
    rw [docVecs] at h
    cases h
    rfl
  | cons doc rest ih =>
    intro out h
    rw [docVecs] at h
    cases hv : docVec td df avg doc with
    | none =>
      rw [hv] at h
      have h' : (none : Option (List SparseVec)) = some out := h
      cases h'
    | some v =>
      rw [hv] at h
      cases hvs : docVecs td df avg rest with
      | none =>
        rw [hvs] at h
        have h' : (none : Option (List SparseVec)) = some out := h
        cases h'
      | some vs =>
        rw [hvs] at h
        have h' : some (v :: vs) = some out := h
        cases h'
        have hveq : v = docEntry td df avg doc := by
          unfold docVec at hv
          by_cases hc : retainedTokens doc ≠ [] ∧ avg = 0
          · rw [if_pos hc] at hv; cases hv
          · rw [if_neg hc] at hv
            cases hv
            rfl
        rw [List.map_cons, hveq, ih hvs]

theorem docVecs_single {td avg : ℝ} {df : ℕ → ℕ} {doc : List ℕ} {v : SparseVec}
    (h : docVec td df avg doc = some v) :
    docVecs td df avg [doc] = some [v] := by
  rw [docVecs, h, docVecs]

theorem bm25_one_zero : bm25Score 1 1 1 1 1 = 0 := by
  unfold bm25Score k1 b
  have hlog : Real.log ((1 - 1 + 0.5) / (1 + 0.5)) ≤ 0 :=
    Real.log_nonpos (by norm_num) (by norm_num)
  rw [max_eq_left hlog, zero_mul]

theorem build_dict_single3 :
    build_dict [[3]] = some [{ indices := [3], values := [0] }] := by
  have hb : bm25Score ((1:ℕ):ℝ) ((1:ℕ):ℝ) ((1:ℕ):ℝ) ((1:ℕ):ℝ)
      (((1:ℕ):ℝ) / ((1:ℕ):ℝ)) = 0 := by
    rw [Nat.cast_one, div_one]
    exact bm25_one_zero
  have hdv : docVec (([[3]] : List (List ℕ)).length : ℝ) (docFreq [[3]])
      (((([[3]] : List (List ℕ)).map List.length).sum : ℝ)
        / (([[3]] : List (List ℕ)).length : ℝ)) [3]
      = some { indices := [3], values := [0] } := by
    unfold docVec
    rw [if_neg (by norm_num)]
    refine congrArg some ?_
    unfold docEntry
    have h3 : retainedTokens [3] = [3] := rfl
    rw [h3, List.map_cons, List.map_nil]
    show ({ indices := [3],
            values := [bm25Score ((1:ℕ):ℝ) ((1:ℕ):ℝ) ((1:ℕ):ℝ) ((1:ℕ):ℝ)
              (((1:ℕ):ℝ) / ((1:ℕ):ℝ))] } : SparseVec)
      = { indices := [3], values := [0] }
    rw [hb]
  unfold build_dict
  rw [if_neg (by simp)]
  exact docVecs_single hdv

theorem runBatches_length {α : Type} :
    ∀ {items : List (List α × List UpsertOutcome)} {res : List Bool},
      runBatches items = some res → res.length = items.length := by
  intro items
  induction items with
  | nil =>
    intro res h
    rw [runBatches] at h
    cases h
    rfl
  | cons p rest ih =>
    obtain ⟨vs, tr⟩ := p
    intro res h
    rw [runBatches] at h
    cases hu : upsert_with_retry vs 3 tr with
    | none =>
      rw [hu] at h
      have h' : (none : Option (List Bool)) = some res := h
      cases h'
    | some r =>
      rw [hu] at h
      cases r with
      | done ups =>
        have h' : (runBatches rest).map (fun bs => true :: bs) = some res := h
        obtain ⟨bs, hbs, hres⟩ := Option.map_eq_some'.mp h'
        rw [← hres, List.length_cons, ih hbs, List.length_cons]
      | raised ups =>
        have h' : (runBatches rest).map (fun bs => false :: bs) = some res := h
        obtain ⟨bs, hbs, hres⟩ := Option.map_eq_some'.mp h'
        rw [← hres, List.length_cons, ih hbs, List.length_cons]

end IndexingHybrid

theorem dedupLoop_mem {α : Type} [DecidableEq α] :
    ∀ {m seen : List α} {x : α}, x ∈ dedupLoop m seen → x ∈ m ∧ x ∉ seen := by
  intro m
  induction m with
  | nil => intro seen x hx; cases hx
  | cons c rest ih =>
    intro seen x hx
    by_cases hc : c ∈ seen
    · rw [dedupLoop, if_pos hc] at hx
      obtain ⟨h1, h2⟩ := ih hx
      exact ⟨List.mem_cons_of_mem _ h1, h2⟩
    · rw [dedupLoop, if_neg hc] at hx
      rcases List.mem_cons.mp hx with rfl | hx'
      · exact ⟨List.mem_cons_self _ _, hc⟩
      · obtain ⟨h1, h2⟩ := ih hx'
        exact ⟨List.mem_cons_of_mem _ h1, fun hs => h2 (List.mem_cons_of_mem _ hs)⟩

theorem firstIdx_cons_ne {α : Type} [DecidableEq α] {x c : α} (rest : List α)
    (h : c ≠ x) : firstIdx x (c :: rest) = firstIdx x rest + 1 := by
  rw [firstIdx, if_neg h]

theorem dedupLoop_pairwise_firstIdx {α : Type} [DecidableEq α] :
    ∀ (m seen : List α),
      List.Pairwise (fun p q => firstIdx p m < firstIdx q m) (dedupLoop m seen) := by
  intro m
  induction m with
  | nil => intro seen; rw [dedupLoop]; exact List.Pairwise.nil
  | cons c rest ih =>
    intro seen
    by_cases hc : c ∈ seen
    · rw [dedupLoop, if_pos hc]
      refine (ih seen).imp_of_mem ?_
      intro p q hp hq hlt
      have hpc : c ≠ p := fun h => (dedupLoop_mem hp).2 (h ▸ hc)
      have hqc : c ≠ q := fun h => (dedupLoop_mem hq).2 (h ▸ hc)
      rw [firstIdx_cons_ne rest hpc, firstIdx_cons_ne rest hqc]
      omega
    · rw [dedupLoop, if_neg hc]
      refine List.pairwise_cons.mpr ⟨?_, ?_⟩
      · intro q hq
        have hqc : c ≠ q := by
          intro h
          exact (dedupLoop_mem hq).2 (h ▸ List.mem_cons_self c seen)
        rw [firstIdx, if_pos rfl, firstIdx_cons_ne rest hqc]
        omega
      · refine (ih (c :: seen)).imp_of_mem ?_
        intro p q hp hq hlt
        have hpc : c ≠ p := fun h =>
          (dedupLoop_mem hp).2 (h ▸ List.mem_cons_self c seen)
        have hqc : c ≠ q := fun h =>
          (dedupLoop_mem hq).2 (h ▸ List.mem_cons_self c seen)
        rw [firstIdx_cons_ne rest hpc, firstIdx_cons_ne rest hqc]
        omega

open App in
/-- C2: for every input string, `extract_citation` returns a sequence of
`(filename, page)` pairs in which no pair occurs twice, and the pairs appear
in order of the first occurrence of their citation marker in the input text
(`matchesOf` lists the markers in text order, and `firstIdx` is the position
of a pair's first marker). -/
theorem C2_extract_citation_dedup_order (t : String) :
    (extract_citation t).Nodup ∧
    List.Pairwise
      (fun p q => firstIdx p (matchesOf t) < firstIdx q (matchesOf t))
      (extract_citation t) := by
  have hp := dedupLoop_pairwise_firstIdx (matchesOf t) []
  refine ⟨hp.imp ?_, hp⟩
  intro p q hlt
  intro h
  rw [h] at hlt
  omega

open IndexingPinecone in
/-- C1: re-running ingestion over a batch whose (distinct, present) ids all
already exist in the index — the existence check returns every id of the
batch — reports `skipped` equal to the batch size and `processed = 0`, and
issues no embedding call and no upsert call. -/
theorem C1_reingest_all_existing (batch : List IChunk) (resp : List (List ℚ))
    (hids : ∀ c ∈ batch, c.element_id.getD "" ≠ "")
    (hnodup : (batchIds batch).Nodup) :
    ingestBatch batch (some (batchIds batch).toFinset) resp
      = { skipped := batch.length, processed := 0,
          embedCalled := false, upsertCalled := false } := by
  have hnew : batch.filter (keepChunk (batchIds batch).toFinset) = [] := by
    rw [List.filter_eq_nil_iff]
    intro c hc
    cases he : c.element_id with
    | none =>
      have := hids c hc
      rw [he] at this
      exact absurd rfl this
    | some id =>
      have hne : id ≠ "" := by have := hids c hc; rw [he] at this; exact this
      have hmem : id ∈ (batchIds batch).toFinset :=
        List.mem_toFinset.mpr (mem_batchIds hc he hne)
      unfold keepChunk
      rw [he]
      simp [hmem]
  have hpb : process_batch batch (batchIds batch).toFinset resp = ⟨[], false⟩ := by
    unfold process_batch
    rw [hnew]
    rfl
  unfold ingestBatch check_existing_ids
  simp only [Option.getD_some, hpb]
  have hcard : (batchIds batch).toFinset.card = batch.length := by
    rw [List.toFinset_card_of_nodup hnodup, batchIds_length hids]
  rw [hcard]
  rfl

open IndexingPinecone in
/-- Witness for C1 at a concrete two-chunk batch whose ids the index
reports as already present. -/
theorem C1_reingest_all_existing_witness :
    ingestBatch
        [{ element_id := some "a", type := some "NarrativeText",
           text := some "Hello world",
           metadata := { filename := some "f.pdf", filetype := some "pdf",
                         languages := some ["en"], page_number := some 1 } },
         { element_id := some "b", type := none, text := some "Zwei",
           metadata := { filename := none, filetype := none,
                         languages := none, page_number := none } }]
        (some (batchIds
          [{ element_id := some "a", type := some "NarrativeText",
             text := some "Hello world",
             metadata := { filename := some "f.pdf", filetype := some "pdf",
                           languages := some ["en"], page_number := some 1 } },
           { element_id := some "b", type := none, text := some "Zwei",
             metadata := { filename := none, filetype := none,
                           languages := none, page_number := none } }]).toFinset)
        []
      = { skipped := 2, processed := 0, embedCalled := false, upsertCalled := false } :=
  C1_reingest_all_existing _ [] (by decide) (by decide)

open IndexingPinecone in
/-- C9: when the index fetch fails, `check_existing_ids` swallows the error
and returns the empty set, so the batch loop counts `skipped = 0` and
`process_batch` treats every chunk of the batch as new: the embedding call
is issued, all chunks are re-embedded, and the upsert is issued — the
idempotence skip is silently lost for that batch. -/
theorem C9_existence_check_failure :
    check_existing_ids none = ∅ ∧
    ∀ (batch : List IChunk) (resp : List (List ℚ)),
      batch ≠ [] →
      (∀ c ∈ batch, c.element_id.getD "" ≠ "" ∧
        c.type ≠ some "Footer" ∧ c.type ≠ some "Image" ∧
        c.text.getD "" ≠ "" ∧
        pyStrip (normalizeText (c.text.getD "")).toList ≠ []) →
      resp.length = batch.length →
      ingestBatch batch none resp
        = { skipped := 0, processed := batch.length,
            embedCalled := true, upsertCalled := true } := by
  refine ⟨rfl, ?_⟩
  intro batch resp hne hok hlen
  have hkeep : batch.filter (keepChunk ∅) = batch := by
    rw [List.filter_eq_self]
    intro c hc
    obtain ⟨_, hF, hI, _, _⟩ := hok c hc
    unfold keepChunk
    cases c.element_id <;> simp [hF, hI]
  have hcv : collectValid batch
      = (batch.map (fun c => normalizeText (c.text.getD "")), batch) :=
    collectValid_all (fun c hc => ⟨(hok c hc).2.2.2.1, (hok c hc).2.2.2.2⟩)
  obtain ⟨vs, hvs, hvslen⟩ := buildVectors_all batch 0 resp
    (fun c hc => by
      have := (hok c hc).1
      cases he : c.element_id with
      | none => rw [he] at this; exact absurd rfl this
      | some id => exact fun h => by cases h)
    (by omega)
  have hpb : process_batch batch ∅ resp = ⟨vs, true⟩ := by
    unfold process_batch
    rw [hkeep, hcv]
    have h1 : batch.map (fun c => normalizeText (c.text.getD "")) ≠ [] := by
      intro h
      exact hne (List.map_eq_nil_iff.mp h)
    rw [if_neg (by intro h; exact hne h), if_neg h1, hvs]
  unfold ingestBatch check_existing_ids
  simp only [Option.getD_none, hpb]
  have hvsne : vs.isEmpty = false := by
    cases vs with
    | nil => exact absurd (List.length_eq_zero.mp hvslen.symm) hne
    | cons _ _ => rfl
  rw [Finset.card_empty, hvslen, hvsne]
  rfl

open IndexingPinecone in
/-- Witness for C9: a one-chunk batch under a failed existence check is
fully re-embedded and re-upserted with `skipped = 0`. -/
theorem C9_existence_check_failure_witness :
    check_existing_ids none = ∅ ∧
    ingestBatch
        [{ element_id := some "a", type := some "NarrativeText",
           text := some "Hello world",
           metadata := { filename := some "f.pdf", filetype := some "pdf",
                         languages := some ["en"], page_number := some 1 } }]
        none [[1]]
      = { skipped := 0, processed := 1, embedCalled := true, upsertCalled := true } :=
  ⟨C9_existence_check_failure.1,
    C9_existence_check_failure.2 _ [[1]] (by decide) (by decide) (by decide)⟩

open IndexingHybrid in
/-- C3 counterexample: `build_dict` does not omit zero-score terms.  On the
one-document batch `[[3]]` the single retained token has idf
`max(0, ln(0.5/1.5)) = 0`, hence score `0`, and the output still lists index
`3` with value `0` — refuting the claim that every zero-score term is
omitted from the output vector. -/
theorem C3_zero_score_not_omitted_cex :
    build_dict [[3]] = some [{ indices := [3], values := [0] }] ∧
    ¬ (∀ out, build_dict [[3]] = some out → ∀ v ∈ out, (0:ℝ) ∉ v.values) := by
  refine ⟨build_dict_single3, fun hall => ?_⟩
  exact hall _ build_dict_single3 _ (List.mem_singleton_self _)
    (List.mem_singleton_self 0)

open IndexingHybrid in
/-- C3 (amended): for every batch on which `build_dict` succeeds, each
document's sparse vector lists exactly its distinct non-special token ids
(ids 0, 1, 2 excluded), each paired with the score
`idf * (tf*(k1+1)) / (tf + k1*(1 - b + b*(len/avgLen)))`,
`idf = max(0, ln((N - df + 0.5)/(df + 0.5)))`, `k1 = 1.5`, `b = 0.75`,
`N` the batch size, `df` the batch document frequency, `tf` the term
frequency and `len` the document length — zero-score terms included, not
omitted. -/
theorem C3_bm25_scores (batch : List (List ℕ)) (out : List SparseVec)
    (h : build_dict batch = some out) :
    out = batch.map (fun doc =>
      { indices := retainedTokens doc,
        values := (retainedTokens doc).map (fun t =>
          specScore batch.length (docFreq batch t) (doc.count t) doc.length
            (((batch.map List.length).sum : ℝ) / (batch.length : ℝ))) }) := by
  unfold build_dict at h
  by_cases h0 : batch.length = 0
  · rw [if_pos h0] at h; cases h
  · rw [if_neg h0] at h
    rw [docVecs_eq h]
    simp only [docEntry, bm25Score_eq_spec]

open IndexingHybrid in
/-- Witness for C3 (amended) at the concrete batch `[[3]]`. -/
theorem C3_bm25_scores_witness :
    build_dict [[3]] = some [{ indices := [3], values := [0] }] ∧
    [({ indices := [3], values := [0] } : SparseVec)]
      = [[3]].map (fun doc =>
        { indices := retainedTokens doc,
          values := (retainedTokens doc).map (fun t =>
            specScore ([[3]] : List (List ℕ)).length (docFreq [[3]] t)
              (doc.count t) doc.length
              (((([[3]] : List (List ℕ)).map List.length).sum : ℝ)
                / (([[3]] : List (List ℕ)).length : ℝ))) }) :=
  ⟨build_dict_single3, C3_bm25_scores [[3]] _ build_dict_single3⟩

open IndexingHybrid in
/-- C8: on a batch consisting of one document with at least one token,
`build_dict` raises no division error (the average length is the document's
nonzero length) and returns a sparse vector whose token ids are a subset of
the document's distinct non-special token ids. -/
theorem C8_single_doc_safe (doc : List ℕ) (h : doc ≠ []) :
    ∃ v, build_dict [doc] = some [v] ∧
      ∀ t ∈ v.indices, t ∈ doc ∧ t ≠ 0 ∧ t ≠ 1 ∧ t ≠ 2 := by
  have hlen : (doc.length : ℝ) ≠ 0 := by
    have hne : doc.length ≠ 0 := fun hh => h (List.length_eq_zero.mp hh)
    exact_mod_cast hne
  have havg : (((([doc] : List (List ℕ)).map List.length).sum : ℝ)
      / (([doc] : List (List ℕ)).length : ℝ)) ≠ 0 := by
    have h1 : (([doc] : List (List ℕ)).map List.length).sum = doc.length := by simp
    have h2 : ([doc] : List (List ℕ)).length = 1 := rfl
    rw [h1, h2, Nat.cast_one, div_one]
    exact hlen
  have hdv : docVec (([doc] : List (List ℕ)).length : ℝ) (docFreq [doc])
      (((([doc] : List (List ℕ)).map List.length).sum : ℝ)
        / (([doc] : List (List ℕ)).length : ℝ)) doc
      = some (docEntry (([doc] : List (List ℕ)).length : ℝ) (docFreq [doc])
          (((([doc] : List (List ℕ)).map List.length).sum : ℝ)
            / (([doc] : List (List ℕ)).length : ℝ)) doc) := by
    unfold docVec
    rw [if_neg (fun hc => havg hc.2)]
  refine ⟨_, by
    unfold build_dict
    rw [if_neg (by simp)]
    exact docVecs_single hdv, ?_⟩
  intro t ht
  have ht' : t ∈ (counterKeys doc).filter
      (fun t => decide (¬(t = 0 ∨ t = 1 ∨ t = 2))) := ht
  have hmem := List.mem_filter.mp ht'
  have hspec := of_decide_eq_true hmem.2
  push_neg at hspec
  exact ⟨(dedupLoop_mem hmem.1).1, hspec.1, hspec.2.1, hspec.2.2⟩

open IndexingHybrid in
/-- Witness for C8 at the one-token document `[3]`. -/
theorem C8_single_doc_safe_witness :
    ([3] : List ℕ) ≠ [] ∧
    ∃ v, build_dict [[3]] = some [v] ∧
      ∀ t ∈ v.indices, t ∈ [3] ∧ t ≠ 0 ∧ t ≠ 1 ∧ t ≠ 2 :=
  ⟨by decide, C8_single_doc_safe [3] (by decide)⟩

open App in
/-- C7 counterexample: the digit group `\d+` also matches `0`, so
`extract_citation` can return a citation whose page is `0 < 1`: on the input
`[a.pdf, Page 0]` it returns exactly `[("a.pdf", 0)]`, refuting the claim
that every returned Citation has page ≥ 1. -/
theorem C7_page_zero_cex :
    extract_citation "[a.pdf, Page 0]" = [("a.pdf", 0)] ∧
    ¬ (∀ p ∈ extract_citation "[a.pdf, Page 0]", 1 ≤ p.2) := by
  constructor
  · decide
  · intro hall
    have := hall ("a.pdf", 0) (by decide)
    omega

open App in
/-- C7 (amended): every pair returned by `extract_citation` comes from a
bracketed marker `[<filename>, Page <N>]` or `[<filename>, Seite <N>]`
occurring literally in the input (keyword case-sensitively as written,
arbitrary `\s*` whitespace around it, filename free of newlines), where `N`
is a nonnegative integer literal — the pattern `\d+` also accepts `0`, so the
returned page is only guaranteed to be ≥ 0, not ≥ 1. -/
theorem C7_citation_marker_shape (t f : String) (n : ℕ)
    (h : (f, n) ∈ extract_citation t) :
    ∃ g ws1 kw ws2 ds pre post,
      f = String.mk g ∧ n = digitsToNat ds ∧
      (kw = pageKw ∨ kw = seiteKw) ∧
      ds ≠ [] ∧ (∀ c ∈ ds, Char.isDigit c) ∧
      (∀ c ∈ ws1, pyIsSpace c) ∧ (∀ c ∈ ws2, pyIsSpace c) ∧
      (∀ c ∈ g, c ≠ '\n') ∧
      t.toList = pre ++ '[' :: (g ++ ',' :: (ws1 ++ kw ++ ws2 ++ ds ++ ']' :: post)) := by
  have hmem : (f, n) ∈ matchesOf t := (dedupLoop_mem h).1
  unfold matchesOf findAll at hmem
  obtain ⟨⟨g, ds⟩, hin, heq⟩ := List.mem_map.mp hmem
  obtain ⟨ws1, kw, ws2, pre, post, hkw, hws1, hws2, hne, hdig, hgnl, hcs⟩ :=
    findAllFuel_sound t.toList.length t.toList g ds hin
  refine ⟨g, ws1, kw, ws2, ds, pre, post, ?_, ?_, hkw, hne, hdig, hws1, hws2, hgnl, hcs⟩
  · exact (congrArg Prod.fst heq).symm
  · exact (congrArg Prod.snd heq).symm

open App in
/-- Witness for C7 (amended): the concrete citation extracted from
`[a.pdf, Seite 12]` decomposes into the literal marker shape. -/
theorem C7_citation_marker_shape_witness :
    ("a.pdf", 12) ∈ extract_citation "[a.pdf, Seite 12]" ∧
    (∃ g ws1 kw ws2 ds pre post,
      "a.pdf" = String.mk g ∧ 12 = digitsToNat ds ∧
      (kw = pageKw ∨ kw = seiteKw) ∧
      ds ≠ [] ∧ (∀ c ∈ ds, Char.isDigit c) ∧
      (∀ c ∈ ws1, pyIsSpace c) ∧ (∀ c ∈ ws2, pyIsSpace c) ∧
      (∀ c ∈ g, c ≠ '\n') ∧
      ("[a.pdf, Seite 12]" : String).toList
        = pre ++ '[' :: (g ++ ',' :: (ws1 ++ kw ++ ws2 ++ ds ++ ']' :: post))) :=
  ⟨by decide, C7_citation_marker_shape "[a.pdf, Seite 12]" "a.pdf" 12 (by decide)⟩

open RetrieveHybrid in
/-- C4: for every query and positive `topK = k`, `search` returns at most
`k` results and preserves the index's relevance order (non-increasing score)
without re-sorting, assuming the index collaborator returns at most `k`
matches sorted by descending score. -/
theorem C4_search_topk_order (k : ℕ) (ms : List PMatch) (res : List SearchResult)
    (hk : ms.length ≤ k)
    (hsorted : List.Pairwise (fun a b => b.score ≤ a.score) ms)
    (h : search ms = some res) :
    res.length ≤ k ∧
    res.map SearchResult.score = ms.map PMatch.score ∧
    List.Pairwise (fun a b => b.score ≤ a.score) res := by
  obtain ⟨hsc, _, hlen⟩ := search_eq_some h
  refine ⟨hlen ▸ hk, hsc, ?_⟩
  have h1 : List.Pairwise (fun x y : ℚ => y ≤ x) (ms.map PMatch.score) :=
    List.pairwise_map.mpr hsorted
  rw [← hsc] at h1
  exact List.pairwise_map.mp h1

open RetrieveHybrid in
/-- Witness for C4 at a concrete two-match response. -/
theorem C4_search_topk_order_witness :
    ([mA, mB].length ≤ 2 ∧
      List.Pairwise (fun a b : PMatch => b.score ≤ a.score) [mA, mB]) ∧
    ((search [mA, mB]).getD []).length ≤ 2 ∧
    ((search [mA, mB]).getD []).map SearchResult.score = [mA, mB].map PMatch.score ∧
    List.Pairwise (fun a b : SearchResult => b.score ≤ a.score) ((search [mA, mB]).getD []) :=
  ⟨⟨by decide, by decide⟩,
    C4_search_topk_order 2 [mA, mB] ((search [mA, mB]).getD [])
      (by decide) (by decide) rfl⟩

open RetrieveHybrid in
/-- C5 counterexample: a match whose stored `page_number` is the float `7.5`
is mapped by `search` to a result whose `page` field is still `7.5` — not an
integer and not the truncation `7`; the code passes the stored value through
unconverted. -/
theorem C5_page_truncation_cex :
    search [m75] = some [{ text := "t", source := "doc.pdf", score := 1, page := q15half }] ∧
    pyInt q15half = 7 ∧ q15half ≠ ((7 : ℤ) : ℚ) :=
  ⟨rfl, by decide, by decide⟩

open RetrieveHybrid in
/-- C5 (amended): `search` passes the stored `page_number` through unchanged
(defaulting to `1` when absent); the coercion to an integer by float
conversion and truncation is applied downstream by `get_unique_pages`, which
collects `(source, int(float(page)))` pairs. -/
theorem C5_page_passthrough (ms : List PMatch) (res : List SearchResult)
    (h : search ms = some res) :
    res.map SearchResult.page = ms.map (fun m => m.metadata.page_number.getD 1) ∧
    get_unique_pages res = (res.map (fun r => (r.source, pyInt r.page))).toFinset :=
  ⟨(search_eq_some h).2.1, get_unique_pages_eq res⟩

open RetrieveHybrid in
/-- Witness for C5 (amended) at a concrete response holding a fractional and
an absent page number. -/
theorem C5_page_passthrough_witness :
    ((search [m75, mB]).getD []).map SearchResult.page
        = [m75, mB].map (fun m => m.metadata.page_number.getD 1) ∧
    get_unique_pages ((search [m75, mB]).getD [])
        = (((search [m75, mB]).getD []).map (fun r => (r.source, pyInt r.page))).toFinset :=
  C5_page_passthrough [m75, mB] ((search [m75, mB]).getD []) rfl

open RetrieveHybrid in
/-- C10: `search` defaults the `page` field to 1 when `page_number` is absent
from a match's metadata, but a missing `text` or `filename` key on any match
raises a key-lookup error that aborts the entire search, returning no
results. -/
theorem C10_mandatory_metadata_keys :
    (∀ (ms : List PMatch) (m : PMatch), m ∈ ms →
        (m.metadata.text = none ∨ m.metadata.filename = none) →
        search ms = none) ∧
    (∀ (m : PMatch) (t f : String), m.metadata.text = some t →
        m.metadata.filename = some f → m.metadata.page_number = none →
        matchToResult m = some { text := t, source := f, score := m.score, page := 1 }) := by
  constructor
  · intro ms m hm hnone
    have hmr : matchToResult m = none := by
      unfold matchToResult
      rcases hnone with h | h <;> rw [h] <;>
        cases m.metadata.text <;> cases m.metadata.filename <;> rfl
    induction ms with
    | nil => cases hm
    | cons x rest ih =>
      rcases List.mem_cons.mp hm with rfl | hmem
      · unfold search
        rw [hmr]
      · unfold search
        rw [ih hmem]
        cases matchToResult x <;> rfl
  · intro m t f ht hf hp
    unfold matchToResult
    rw [ht, hf, hp]
    rfl

open RetrieveHybrid in
/-- Witness for C10: a batch containing a match with no `text` key yields no
results at all, and a match lacking only `page_number` defaults to page 1. -/
theorem C10_mandatory_metadata_keys_witness :
    search [mA, mBad] = none ∧
    matchToResult mB = some { text := "tb", source := "b.pdf", score := 1, page := 1 } :=
  ⟨C10_mandatory_metadata_keys.1 [mA, mBad] mBad (by decide) (Or.inl rfl),
    C10_mandatory_metadata_keys.2 mB "tb" "b.pdf" rfl rfl rfl⟩

open IndexingHybrid in
/-- C6: on a payload-size upsert failure with sub-batch size above 1, the
size is halved (floor 1) and the same position is retried — the retried
sub-batch is a prefix of the vectors that just failed, so nothing is
skipped; a transient failure below the retry ceiling is retried with the
attempt counter advanced; at the ceiling the batch raises; `main` records
the raised batch as failed and continues with the next batch, attempting
every batch of the run (the exponential-backoff sleep durations are real
time and outside the model). -/
theorem C6_upsert_retry_semantics :
    (∀ (α : Type) (vectors : List α) (mr : ℕ) (rest : List UpsertOutcome)
        (start chunk attempt : ℕ) (acc : List (List α)),
      start < vectors.length → 1 < chunk →
      upsertAux vectors mr (UpsertOutcome.payloadTooLarge :: rest) start chunk attempt acc
        = upsertAux vectors mr rest start (max 1 (chunk / 2)) 0 acc) ∧
    (∀ (α : Type) (vectors : List α) (start chunk : ℕ),
      1 < chunk →
      (vectors.drop start).take (max 1 (chunk / 2))
        = ((vectors.drop start).take chunk).take (max 1 (chunk / 2))) ∧
    (∀ (α : Type) (vectors : List α) (mr : ℕ) (rest : List UpsertOutcome)
        (start chunk attempt : ℕ) (acc : List (List α)),
      start < vectors.length → attempt + 1 < mr →
      upsertAux vectors mr (UpsertOutcome.transient :: rest) start chunk attempt acc
        = upsertAux vectors mr rest start chunk (attempt + 1) acc) ∧
    (∀ (α : Type) (vectors : List α) (mr : ℕ) (rest : List UpsertOutcome)
        (start chunk attempt : ℕ) (acc : List (List α)),
      start < vectors.length → ¬(attempt + 1 < mr) →
      upsertAux vectors mr (UpsertOutcome.transient :: rest) start chunk attempt acc
        = some (UwrResult.raised acc.reverse)) ∧
    (∀ (α : Type) (vs : List α) (tr : List UpsertOutcome)
        (rest : List (List α × List UpsertOutcome)) (ups : List (List α)),
      upsert_with_retry vs 3 tr = some (UwrResult.raised ups) →
      runBatches ((vs, tr) :: rest)
        = (runBatches rest).map (fun bs => false :: bs)) ∧
    (∀ (α : Type) (items : List (List α × List UpsertOutcome)) (res : List Bool),
      runBatches items = some res → res.length = items.length) := by
  refine ⟨?_, ?_, ?_, ?_, ?_, ?_⟩
  · intro α vectors mr rest start chunk attempt acc h1 h2
    rw [upsertAux, if_neg (not_le.mpr h1), if_pos h2]
  · intro α vectors start chunk h2
    rw [List.take_take]
    congr 1
    omega
  · intro α vectors mr rest start chunk attempt acc h1 h2
    rw [upsertAux, if_neg (not_le.mpr h1), if_pos h2]
  · intro α vectors mr rest start chunk attempt acc h1 h2
    rw [upsertAux, if_neg (not_le.mpr h1), if_neg h2]
  · intro α vs tr rest ups h
    rw [runBatches, h]
  · intro α items res h
    exact runBatches_length h

open IndexingHybrid in
/-- Witness for C6 at concrete traces: a payload failure at chunk 50 halves
to 25; a first transient failure is retried; a third consecutive transient
failure raises; three transient failures on a batch make `main` record it
failed and continue; a one-batch run with a failed batch still attempts the
batch. -/
theorem C6_upsert_retry_semantics_witness :
    (upsertAux ([0, 1] : List ℕ) 3 [UpsertOutcome.payloadTooLarge] 0 50 0 []
      = upsertAux ([0, 1] : List ℕ) 3 [] 0 (max 1 (50 / 2)) 0 []) ∧
    ((([0, 1] : List ℕ).drop 0).take (max 1 (50 / 2))
      = ((([0, 1] : List ℕ).drop 0).take 50).take (max 1 (50 / 2))) ∧
    (upsertAux ([0, 1] : List ℕ) 3 [UpsertOutcome.transient] 0 50 0 []
      = upsertAux ([0, 1] : List ℕ) 3 [] 0 50 1 []) ∧
    (upsertAux ([0, 1] : List ℕ) 3 [UpsertOutcome.transient] 0 50 2 []
      = some (UwrResult.raised [])) ∧
    (runBatches [(([0] : List ℕ),
        [UpsertOutcome.transient, UpsertOutcome.transient, UpsertOutcome.transient])]
      = (runBatches ([] : List (List ℕ × List UpsertOutcome))).map
          (fun bs => false :: bs)) ∧
    ([false] : List Bool).length
      = [(([0] : List ℕ),
          [UpsertOutcome.transient, UpsertOutcome.transient, UpsertOutcome.transient])].length := by
  refine ⟨?_, ?_, ?_, ?_, ?_, ?_⟩
  · exact C6_upsert_retry_semantics.1 ℕ [0, 1] 3 [] 0 50 0 [] (by decide) (by decide)
  · exact C6_upsert_retry_semantics.2.1 ℕ [0, 1] 0 50 (by decide)
  · exact C6_upsert_retry_semantics.2.2.1 ℕ [0, 1] 3 [] 0 50 0 [] (by decide) (by decide)
  · exact C6_upsert_retry_semantics.2.2.2.1 ℕ [0, 1] 3 [] 0 50 2 [] (by decide) (by decide)
  · exact C6_upsert_retry_semantics.2.2.2.2.1 ℕ [0]
      [UpsertOutcome.transient, UpsertOutcome.transient, UpsertOutcome.transient] [] []
      (by decide)
  · exact C6_upsert_retry_semantics.2.2.2.2.2 ℕ
      [(([0] : List ℕ),
        [UpsertOutcome.transient, UpsertOutcome.transient, UpsertOutcome.transient])]
      [false] (by decide)
